import Mathlib

/-!
# Verification of `analysis.py` (tiling-combinatorics)

Shallow embedding of the computational core of `src/analysis.py`:

* `tiling_recurrence` — the exact integer recurrence evaluator
  (`a_0 = 1, a_1 = 2, a_2 = 7`, `a_N = 3 a_{N-1} + a_{N-2} - a_{N-3}`),
  translated from the Python list-building loop, including its behaviour
  on negative arguments (`[0] * (max_n + 1)` is empty and the loop body
  never runs, so the empty list is returned);
* `tiling_gf_exact` — exact Taylor-coefficient extraction from the
  generating function `G(x) = (1 - x) / (x^3 - x^2 - 3x + 1)` by iterated
  symbolic differentiation, evaluation at `0` and division by `N!`;
* the root/residue closed form and the breakdown search of `main`.

Polynomials are embedded as rational coefficient lists (executable), with
semantics into `PowerSeries ℚ` for the correctness proofs.
-/

namespace TilingAnalysis

/-- Fast linear-time presentation of the recurrence sequence: the state is
the window `(a_n, a_{n+1}, a_{n+2})`. -/
def recAux : Nat → Int × Int × Int
  | 0 => (1, 2, 7)
  | n + 1 =>
    let t := recAux n
    (t.2.1, t.2.2, 3 * t.2.2 + t.2.1 - t.1)

/-- The mathematical sequence `a_N` defined by the order-3 recurrence with
seeds `1, 2, 7` — the value the spec calls `recurrence_term(N)`. -/
def recurrence_term (n : Nat) : Int := (recAux n).1

theorem recurrence_term_zero : recurrence_term 0 = 1 := rfl

theorem recurrence_term_one : recurrence_term 1 = 2 := rfl

theorem recurrence_term_two : recurrence_term 2 = 7 := rfl

theorem recAux_fst_succ (n : Nat) : (recAux (n + 1)).1 = (recAux n).2.1 := by
  simp [recAux]

theorem recAux_snd_fst_succ (n : Nat) : (recAux (n + 1)).2.1 = (recAux n).2.2 := by
  simp [recAux]

theorem recAux_snd_snd_succ (n : Nat) :
    (recAux (n + 1)).2.2 = 3 * (recAux n).2.2 + (recAux n).2.1 - (recAux n).1 := by
  simp [recAux]

theorem recurrence_term_step (n : Nat) :
    recurrence_term (n + 3) =
      3 * recurrence_term (n + 2) + recurrence_term (n + 1) - recurrence_term n := by
  show (recAux (n + 3)).1 = 3 * (recAux (n + 2)).1 + (recAux (n + 1)).1 - (recAux n).1
  rw [recAux_fst_succ (n + 2), recAux_snd_fst_succ (n + 1), recAux_snd_snd_succ n,
    recAux_fst_succ (n + 1), recAux_snd_fst_succ n, recAux_fst_succ n]

/-- One iteration of the Python loop body in `tiling_recurrence`
(`src/analysis.py` lines 20-24): at step `i` the slot `a[i]` is written
from the seeds or from the three previously written slots.  The list grows
by appending, matching the sequential writes into the pre-allocated zero
list; the default `0` of `getD` is the pre-allocation value and is never
read for the in-range indices used. -/
def tiling_step (a : List Int) (i : Nat) : List Int :=
  a ++ [if i = 0 then 1 else if i = 1 then 2 else if i = 2 then 7
        else 3 * a.getD (i - 1) 0 + a.getD (i - 2) 0 - a.getD (i - 3) 0]

/-- Embedding of `tiling_recurrence(max_n)` (`src/analysis.py` lines 17-25).
The Python argument may be any integer: `[0] * (max_n + 1)` is empty for
`max_n < 0` and `range(max_n + 1)` is then empty as well, which
`(max_n + 1).toNat` reproduces. -/
def tiling_recurrence (max_n : Int) : List Int :=
  (List.range (max_n + 1).toNat).foldl tiling_step []

theorem getD_map_range (f : Nat → Int) (k i : Nat) (h : i < k) :
    ((List.range k).map f).getD i 0 = f i := by
  rw [List.getD_eq_getElem?_getD, List.getElem?_map, List.getElem?_range h]
  rfl

theorem foldl_tiling_step (k : Nat) :
    (List.range k).foldl tiling_step [] = (List.range k).map (fun i => recurrence_term i) := by
  induction k with
  | zero => rfl
  | succ m ih =>
    rw [List.range_succ, List.foldl_append, ih]
    simp only [List.foldl_cons, List.foldl_nil, List.map_append]
    match m with
    | 0 => rfl
    | 1 => rfl
    | 2 => rfl
    | j + 3 =>
      show tiling_step _ _ = _
      unfold tiling_step
      rw [getD_map_range _ _ _ (by omega), getD_map_range _ _ _ (by omega),
        getD_map_range _ _ _ (by omega)]
      simp only [List.map_cons, List.map_nil]
      have h3 : j + 3 - 1 = j + 2 := by omega
      have h2 : j + 3 - 2 = j + 1 := by omega
      have h1 : j + 3 - 3 = j := by omega
      rw [h3, h2, h1]
      rw [recurrence_term_step j]
      simp

theorem tiling_recurrence_natCast (N : Nat) :
    tiling_recurrence (N : Int) = (List.range (N + 1)).map (fun i => recurrence_term i) := by
  unfold tiling_recurrence
  have : ((N : Int) + 1).toNat = N + 1 := by omega
  rw [this, foldl_tiling_step]

theorem tiling_recurrence_length (N : Nat) :
    (tiling_recurrence (N : Int)).length = N + 1 := by
  rw [tiling_recurrence_natCast]; simp

theorem tiling_recurrence_getD (N i : Nat) (h : i ≤ N) :
    (tiling_recurrence (N : Int)).getD i 0 = recurrence_term i := by
  rw [tiling_recurrence_natCast]
  exact getD_map_range _ _ _ (by omega)

theorem recurrence_pos_chain (n : Nat) :
    0 < recurrence_term n ∧ recurrence_term n < recurrence_term (n + 1) ∧
      recurrence_term (n + 1) < recurrence_term (n + 2) := by
  induction n with
  | zero => exact ⟨by decide, by decide, by decide⟩
  | succ m ih =>
    have hstep := recurrence_term_step m
    refine ⟨by omega, ?_, ?_⟩
    · show recurrence_term (m + 1) < recurrence_term (m + 2)
      omega
    · show recurrence_term (m + 2) < recurrence_term (m + 3)
      omega

/-- **C8.** The recurrence evaluator, for every non-negative `N`, returns a
list indexable at every index in `[0, N]` (length `N + 1`), whose entries
are the sequence fixed by the seeds `a_0 = 1, a_1 = 2, a_2 = 7` and the
rule `a_N = 3 a_{N-1} + a_{N-2} - a_{N-3}` for `N ≥ 3`; in particular
`recurrence_term(3) = 22` and `recurrence_term(4) = 71`. -/
theorem c8_recurrence_evaluator (N : Nat) :
    (tiling_recurrence (N : Int)).length = N + 1 ∧
    (∀ i, i ≤ N → (tiling_recurrence (N : Int)).getD i 0 = recurrence_term i) ∧
    recurrence_term 0 = 1 ∧ recurrence_term 1 = 2 ∧ recurrence_term 2 = 7 ∧
    (∀ k, recurrence_term (k + 3) =
      3 * recurrence_term (k + 2) + recurrence_term (k + 1) - recurrence_term k) ∧
    recurrence_term 3 = 22 ∧ recurrence_term 4 = 71 :=
  ⟨tiling_recurrence_length N, fun i hi => tiling_recurrence_getD N i hi,
    rfl, rfl, rfl, recurrence_term_step, by decide, by decide⟩

/-- Witness for C8: the evaluator run at `N = 4` is indexable on `[0, 4]`
and produces the claimed concrete values. -/
theorem c8_recurrence_evaluator_witness :
    (tiling_recurrence ((4 : Nat) : Int)).length = 5 ∧
    (tiling_recurrence ((4 : Nat) : Int)).getD 3 0 = 22 ∧
    (tiling_recurrence ((4 : Nat) : Int)).getD 4 0 = 71 :=
  ⟨(c8_recurrence_evaluator 4).1,
    by rw [(c8_recurrence_evaluator 4).2.1 3 (by decide)]; decide,
    by rw [(c8_recurrence_evaluator 4).2.1 4 (by decide)]; decide⟩

/-- **C10.** Every entry of the list returned by `tiling_recurrence(max_n)`
for `max_n ≥ 0` is a positive integer, and the list is strictly
increasing: `a[i+1] > a[i]` for every `0 ≤ i < max_n`. -/
theorem c10_positive_strictly_increasing (N : Nat) :
    (∀ i, i ≤ N → 0 < (tiling_recurrence (N : Int)).getD i 0) ∧
    (∀ i, i < N →
      (tiling_recurrence (N : Int)).getD i 0 < (tiling_recurrence (N : Int)).getD (i + 1) 0) := by
  constructor
  · intro i hi
    rw [tiling_recurrence_getD N i hi]
    exact (recurrence_pos_chain i).1
  · intro i hi
    rw [tiling_recurrence_getD N i (by omega), tiling_recurrence_getD N (i + 1) (by omega)]
    exact (recurrence_pos_chain i).2.1

/-- Witness for C10 at `N = 5`: positivity and strict increase hold at the
concrete indices `0` and `4`. -/
theorem c10_positive_strictly_increasing_witness :
    0 < (tiling_recurrence ((5 : Nat) : Int)).getD 0 0 ∧
    (tiling_recurrence ((5 : Nat) : Int)).getD 4 0 <
      (tiling_recurrence ((5 : Nat) : Int)).getD 5 0 :=
  ⟨(c10_positive_strictly_increasing 5).1 0 (by decide),
    (c10_positive_strictly_increasing 5).2 4 (by decide)⟩

/-- **C7, counterexample.** The claim says a negative index "neither
returns a value nor crashes uncontrolled" (an invalid-argument failure).
The code has no argument check: `[0] * (max_n + 1)` is the empty list for
negative `max_n` and the loop body never runs, so the call *returns
normally* with the empty list.  At the concrete inputs `-1` and `-100` the
evaluator returns `[]`, refuting the claim. -/
theorem c7_counterexample :
    tiling_recurrence (-1) = [] ∧ tiling_recurrence (-100) = [] :=
  ⟨rfl, rfl⟩

/-- **C7, amended.** For every negative argument, `tiling_recurrence`
returns normally with the empty list: no invalid-argument condition is
raised and no term is produced. -/
theorem c7_amended_negative_returns_empty (m : Int) (hm : m < 0) :
    tiling_recurrence m = [] := by
  unfold tiling_recurrence
  have h : (m + 1).toNat = 0 := by omega
  rw [h]
  rfl

/-- Witness for the amended C7 at the concrete input `-2`. -/
theorem c7_amended_negative_returns_empty_witness :
    tiling_recurrence (-2) = [] :=
  c7_amended_negative_returns_empty (-2) (by decide)

/-!
## Breakdown search (`main`, lines 150-197)

The search compares `round(tiling_approx(n))` with the exact term.  The
rounded approximate value is produced by IEEE-754 double arithmetic, which
has no shallow embedding; it enters the search logic only through the
integer it rounds to, so the scan is embedded parametrically in two
integer-valued oracles `approxRound` (for `round(tiling_approx(n))`) and
`exact` (for the recurrence list entries; `tiling_recurrence_getD` shows
the two lists `a` and `a_ext` of the source agree on shared indices).
-/

/-- Linear scan for the first index in `[lo, lo + len)` satisfying `p`,
the shape of both mismatch loops in `main` (first mismatch wins, earlier
indices are visited first). -/
def scanFirst (p : Nat → Bool) : Nat → Nat → Option Nat
  | _, 0 => none
  | lo, len + 1 => if p lo then some lo else scanFirst p (lo + 1) len

/-- Embedding of the two-phase breakdown search of `main`: phase one scans
`n = 0 .. 20` during the comparison table (lines 152-162); if it records
nothing, phase two scans `n = 21 .. horizon` (lines 187-195).  The source
fixes `horizon = 200` (`range(MAX_N + 1, 201)`); the horizon is the spec's
search parameter. -/
def find_breakdown (approxRound exact : Nat → Int) (horizon : Nat) : Option Nat :=
  match scanFirst (fun n => approxRound n != exact n) 0 21 with
  | some n => some n
  | none => scanFirst (fun n => approxRound n != exact n) 21 (horizon - 20)

theorem scanFirst_eq_some {p : Nat → Bool} :
    ∀ (len lo N : Nat), (scanFirst p lo len = some N ↔
      lo ≤ N ∧ N < lo + len ∧ p N = true ∧ ∀ m, lo ≤ m → m < N → p m = false) := by
  intro len
  induction len with
  | zero =>
    intro lo N
    simp only [scanFirst]
    constructor
    · intro hc; exact absurd hc (by simp)
    · intro hc; omega
  | succ k ih =>
    intro lo N
    show (if p lo then some lo else scanFirst p (lo + 1) k) = some N ↔ _
    by_cases h : p lo
    · rw [if_pos h, Option.some_inj]
      constructor
      · intro he
        subst he
        exact ⟨le_refl _, by omega, h, fun m h1 h2 => absurd h1 (by omega)⟩
      · intro hc
        rcases Nat.eq_or_lt_of_le hc.1 with he | hlt
        · exact he
        · have := hc.2.2.2 lo (le_refl _) hlt
          rw [h] at this
          exact absurd this (by simp)
    · rw [if_neg h, ih (lo + 1) N]
      have hfalse : p lo = false := by
        rcases Bool.eq_false_or_eq_true (p lo) with hf | ht
        · exact absurd hf h
        · exact ht
      constructor
      · rintro ⟨h1, h2, h3, h4⟩
        refine ⟨by omega, by omega, h3, fun m hm1 hm2 => ?_⟩
        rcases Nat.eq_or_lt_of_le hm1 with he | hlt
        · rw [← he]; exact hfalse
        · exact h4 m hlt hm2
      · rintro ⟨h1, h2, h3, h4⟩
        have hne : N ≠ lo := by
          intro he
          rw [he, hfalse] at h3
          exact absurd h3 (by simp)
        exact ⟨by omega, by omega, h3, fun m hm1 hm2 => h4 m (by omega) hm2⟩

theorem scanFirst_eq_none {p : Nat → Bool} :
    ∀ (len lo : Nat), (scanFirst p lo len = none ↔
      ∀ m, lo ≤ m → m < lo + len → p m = false) := by
  intro len
  induction len with
  | zero =>
    intro lo
    simp only [scanFirst]
    constructor
    · intro _; omega
    · intro _; trivial
  | succ k ih =>
    intro lo
    show (if p lo then some lo else scanFirst p (lo + 1) k) = none ↔ _
    by_cases h : p lo
    · rw [if_pos h]
      constructor
      · intro hc; exact absurd hc (by simp)
      · intro hall
        have := hall lo (le_refl _) (by omega)
        rw [h] at this
        exact absurd this (by simp)
    · rw [if_neg h, ih (lo + 1)]
      have hfalse : p lo = false := by
        rcases Bool.eq_false_or_eq_true (p lo) with hf | ht
        · exact absurd hf h
        · exact ht
      constructor
      · intro hall m hm1 hm2
        rcases Nat.eq_or_lt_of_le hm1 with he | hlt
        · rw [← he]; exact hfalse
        · exact hall m hlt (by omega)
      · intro hall m hm1 hm2
        exact hall m (by omega) (by omega)

theorem find_breakdown_eq_some {f e : Nat → Int} {h N : Nat} (hh : 20 ≤ h) :
    find_breakdown f e h = some N ↔
      N ≤ h ∧ f N ≠ e N ∧ ∀ m, m < N → f m = e m := by
  have key : ∀ a b : Int, ((a != b) = true ↔ a ≠ b) ∧ ((a != b) = false ↔ a = b) := by
    intro a b
    constructor
    · simp [bne_iff_ne]
    · simp [bne_eq_false_iff_eq]
  unfold find_breakdown
  rcases hs : scanFirst (fun n => f n != e n) 0 21 with _ | n
  · rw [scanFirst_eq_none] at hs
    rw [scanFirst_eq_some]
    constructor
    · rintro ⟨h1, h2, h3, h4⟩
      refine ⟨by omega, by simpa using (key (f N) (e N)).1.1 h3, fun m hm => ?_⟩
      by_cases hm21 : m < 21
      · exact (key (f m) (e m)).2.1 (by simpa using hs m (by omega) (by omega))
      · exact (key (f m) (e m)).2.1 (by simpa using h4 m (by omega) hm)
    · rintro ⟨h1, h2, h3⟩
      have hN21 : ¬ N < 21 := by
        intro hlt
        exact h2 ((key (f N) (e N)).2.1 (by simpa using hs N (by omega) (by omega)))
      refine ⟨by omega, by omega, by simpa using (key (f N) (e N)).1.2 h2, fun m hm1 hm2 => ?_⟩
      simpa using (key (f m) (e m)).2.2 (h3 m hm2)
  · rw [scanFirst_eq_some] at hs
    rcases hs with ⟨h1, h2, h3, h4⟩
    simp only [Option.some_inj]
    constructor
    · rintro rfl
      refine ⟨by omega, by simpa using (key (f n) (e n)).1.1 h3, fun m hm => ?_⟩
      exact (key (f m) (e m)).2.1 (by simpa using h4 m (by omega) hm)
    · rintro ⟨hb1, hb2, hb3⟩
      by_contra hne
      rcases Nat.lt_or_ge n N with hlt | hge
      · exact absurd (hb3 n hlt) ((key (f n) (e n)).1.1 (by simpa using h3))
      · have : N < n := by omega
        exact absurd ((key (f N) (e N)).2.1 (by simpa using h4 N (by omega) this)) hb2

/-- **C2.** The breakdown search over horizon 200 returns either a first
index `N*` where the rounded approximate value disagrees with the exact
term — with agreement at every index strictly below `N*` — or nothing
("not found"); and re-running with any larger horizon returns the same
`N*`.  The statement is parametric in the rounded-approximation oracle
`approxRound` and the exact-sequence oracle `exact` (the floating-point
values influence the search only through the integers they round to). -/
theorem c2_find_breakdown_first_and_stable (approxRound exact : Nat → Int) :
    ((∃ N, find_breakdown approxRound exact 200 = some N ∧ N ≤ 200 ∧
        approxRound N ≠ exact N ∧ ∀ m, m < N → approxRound m = exact m) ∨
      find_breakdown approxRound exact 200 = none) ∧
    (∀ h h' N, 20 ≤ h → h ≤ h' →
      find_breakdown approxRound exact h = some N →
      find_breakdown approxRound exact h' = some N) := by
  constructor
  · rcases hs : find_breakdown approxRound exact 200 with _ | n
    · exact Or.inr rfl
    · left
      refine ⟨n, rfl, ?_⟩
      have := (find_breakdown_eq_some (f := approxRound) (e := exact) (by omega)).1 hs
      exact this
  · intro h h' N hh hle hsome
    have hc := (find_breakdown_eq_some (f := approxRound) (e := exact) hh).1 hsome
    exact (find_breakdown_eq_some (by omega)).2 ⟨by omega, hc.2.1, hc.2.2⟩

/-- Witness for C2: with the exact sequence as one oracle and an
approximation oracle that first misrounds at index 3, the horizon-200
search finds exactly index 3, and the horizon-250 re-run returns the same
index (stability applied at `h = 200`, `h' = 250`). -/
theorem c2_find_breakdown_first_and_stable_witness :
    find_breakdown (fun n => if n = 3 then 21 else recurrence_term n) recurrence_term 250 =
      some 3 :=
  (c2_find_breakdown_first_and_stable
      (fun n => if n = 3 then 21 else recurrence_term n) recurrence_term).2
    200 250 3 (by decide) (by decide) (by decide)

/-!
## The M-by-N table section of `main` (lines 230-235)

The table loop calls `count_mn_tilings(m, n)`, a name bound nowhere in the
source module.  Python resolves a call's callee name at evaluation time
against the local/global/builtin environments, raising `NameError` when it
is unbound; the environment after executing the module top level is the
list of names below, translated from the import statements and the
module-level definitions of `src/analysis.py`.  Because the callee is
absent from the source there is no computation to model behind a
successful lookup: the embedded section returns the `NameError` outcome or
trivial success, which is all claim C9 concerns.
-/

/-- Module-level bindings of `src/analysis.py`: the `from sympy import`
names (lines 3-8, with their aliases), `import sympy`, `import mpmath`,
and the module-level assignments and `def`s. -/
def module_globals : List String :=
  ["Symbol", "Rational", "apart", "factor", "solve", "simplify", "diff", "factorial",
   "Poly", "roots", "nsimplify", "latex", "pprint", "Float", "Neval",
   "real_roots", "sym_re", "sym_im", "CRootOf", "sqrt", "cbrt", "cos", "pi", "oo",
   "sympy", "mpmath", "x", "tiling_recurrence", "APPROX_ROOTS", "APPROX_COEFFS",
   "tiling_approx", "G", "tiling_gf_exact", "compute_exact_closed_form", "main"]

/-- The M-by-N table loop of `main`: for `m = 1 .. 4` and `n = 0 .. 10`
each cell evaluates `count_mn_tilings(m, n)`, whose callee name must first
resolve in the environment; an unbound name aborts the run with
`NameError`. -/
def mn_table_section (globals : List String) : Except String Unit :=
  (List.range' 1 4).foldlM
    (fun _ _m =>
      (List.range 11).foldlM
        (fun _ _n =>
          if "count_mn_tilings" ∈ globals then Except.ok ()
          else Except.error ("NameError: name count_mn_tilings is not defined"))
        ())
    ()

/-- **C9.** `count_mn_tilings` is defined nowhere in the source, so every
run of `main` that reaches the M-by-N table section fails with an
unresolved-name error (Python `NameError`) on the very first cell, instead
of completing or halting with a method-disagreement diagnostic. -/
theorem c9_mn_table_unresolved_name :
    "count_mn_tilings" ∉ module_globals ∧
    mn_table_section module_globals =
      Except.error ("NameError: name count_mn_tilings is not defined") := by
  constructor
  · decide
  · rfl

/-!
## Exact symbolic arithmetic: coefficient-list polynomials

SymPy expressions over `x` with exact rational coefficients are embedded
as coefficient lists (`index i` = coefficient of `x^i`), with executable
addition, scalar multiple, multiplication, formal derivative and
evaluation.  Their semantics is the evident map into `PowerSeries ℚ`,
through which the differentiation facts are proved.
-/

def polyAdd : List ℚ → List ℚ → List ℚ
  | [], q => q
  | p, [] => p
  | a :: p, b :: q => (a + b) :: polyAdd p q

def polySmul (c : ℚ) (p : List ℚ) : List ℚ :=
  p.map (fun a => c * a)

def polyMul : List ℚ → List ℚ → List ℚ
  | [], _ => []
  | a :: p, q => polyAdd (polySmul a q) (0 :: polyMul p q)

/-- Formal derivative: `(a + x·P)' = P + x·P'`. -/
def polyDeriv : List ℚ → List ℚ
  | [] => []
  | _ :: p => polyAdd p (0 :: polyDeriv p)

/-- Horner evaluation. -/
def polyEval (p : List ℚ) (v : ℚ) : ℚ :=
  p.foldr (fun a acc => a + v * acc) 0

/-- Semantics of a coefficient list in `ℚ⟦X⟧` (Horner form). -/
noncomputable def toPS : List ℚ → PowerSeries ℚ
  | [] => 0
  | a :: p => PowerSeries.C ℚ a + PowerSeries.X * toPS p

/-- The formal derivative on `ℚ⟦X⟧`. -/
noncomputable def Dq (f : PowerSeries ℚ) : PowerSeries ℚ :=
  PowerSeries.derivative ℚ f

theorem coeff_toPS : ∀ (l : List ℚ) (k : Nat),
    PowerSeries.coeff ℚ k (toPS l) = l.getD k 0 := by
  intro l
  induction l with
  | nil => intro k; simp [toPS]
  | cons a p ih =>
    intro k
    match k with
    | 0 =>
      show PowerSeries.coeff ℚ 0 (PowerSeries.C ℚ a + PowerSeries.X * toPS p) = a
      rw [PowerSeries.coeff_zero_eq_constantCoeff_apply, map_add, map_mul,
        PowerSeries.constantCoeff_X, zero_mul, add_zero, PowerSeries.constantCoeff_C]
    | k + 1 =>
      show PowerSeries.coeff ℚ (k + 1) (PowerSeries.C ℚ a + PowerSeries.X * toPS p) = _
      rw [map_add, PowerSeries.coeff_C, if_neg (Nat.succ_ne_zero k),
        PowerSeries.coeff_succ_X_mul, zero_add, ih k]
      rfl

theorem toPS_add : ∀ (p q : List ℚ), toPS (polyAdd p q) = toPS p + toPS q := by
  intro p
  induction p with
  | nil => intro q; simp [polyAdd, toPS]
  | cons a p ih =>
    intro q
    match q with
    | [] => simp [polyAdd, toPS]
    | b :: q =>
      show toPS ((a + b) :: polyAdd p q) = _
      show PowerSeries.C ℚ (a + b) + PowerSeries.X * toPS (polyAdd p q) = _
      rw [ih q, map_add]
      show _ = PowerSeries.C ℚ a + PowerSeries.X * toPS p +
        (PowerSeries.C ℚ b + PowerSeries.X * toPS q)
      ring

theorem toPS_smul (c : ℚ) : ∀ (p : List ℚ),
    toPS (polySmul c p) = PowerSeries.C ℚ c * toPS p := by
  intro p
  induction p with
  | nil => simp [polySmul, toPS]
  | cons a p ih =>
    show PowerSeries.C ℚ (c * a) + PowerSeries.X * toPS (polySmul c p) = _
    rw [ih, map_mul]
    show _ = PowerSeries.C ℚ c * (PowerSeries.C ℚ a + PowerSeries.X * toPS p)
    ring

theorem toPS_mul : ∀ (p q : List ℚ), toPS (polyMul p q) = toPS p * toPS q := by
  intro p
  induction p with
  | nil => intro q; simp [polyMul, toPS]
  | cons a p ih =>
    intro q
    show toPS (polyAdd (polySmul a q) (0 :: polyMul p q)) = _
    rw [toPS_add, toPS_smul]
    show _ + (PowerSeries.C ℚ 0 + PowerSeries.X * toPS (polyMul p q)) = _
    rw [ih q, map_zero]
    show _ = (PowerSeries.C ℚ a + PowerSeries.X * toPS p) * toPS q
    ring

theorem toPS_deriv : ∀ (p : List ℚ), toPS (polyDeriv p) = Dq (toPS p) := by
  intro p
  induction p with
  | nil => simp [polyDeriv, toPS, Dq]
  | cons a p ih =>
    show toPS (polyAdd p (0 :: polyDeriv p)) = Dq (PowerSeries.C ℚ a + PowerSeries.X * toPS p)
    rw [toPS_add]
    show toPS p + (PowerSeries.C ℚ 0 + PowerSeries.X * toPS (polyDeriv p)) = _
    rw [ih, map_zero]
    unfold Dq
    rw [map_add, PowerSeries.derivative_C, Derivation.leibniz,
      PowerSeries.derivative_X, smul_eq_mul, smul_eq_mul, mul_one]
    ring

theorem constantCoeff_toPS (p : List ℚ) :
    PowerSeries.constantCoeff ℚ (toPS p) = polyEval p 0 := by
  rw [← PowerSeries.coeff_zero_eq_constantCoeff_apply, coeff_toPS]
  match p with
  | [] => rfl
  | a :: p =>
    show a = a + 0 * _
    ring

/-!
## The generating function `G(x) = (1 - x) / (x^3 - x^2 - 3x + 1)`

`tiling_gf_exact(n)` (`src/analysis.py` lines 50-55) computes the `n`th
symbolic derivative of `G`, substitutes `x = 0` and divides by `n!`.  The
`n`th derivative of a rational function `p₀/q` stays in the class
`p/q^(k+1)`: the quotient rule sends `(p, k)` to `(p'·q - (k+1)·p·q', k+1)`
after cancelling one factor of `q`, so the derivative chain is embedded by
its numerator sequence `gfDerivNum` (the denominator being `q^(n+1)`).
`gfDerivNum_semantics` proves this invariant against the formal derivative
of `ℚ⟦X⟧`: the series `G_num/G_den` is `Gseries` (because
`G_den · Gseries = G_num` and the constant term of `G_den` is a unit), and
the embedded numerator does represent the `n`-th formal derivative. -/

/-- Numerator `1 - x` of `G` (source line 47). -/
def G_num : List ℚ := [1, -1]

/-- Denominator `x^3 - x^2 - 3x + 1` of `G` (source line 47). -/
def G_den : List ℚ := [1, -3, -1, 1]

/-- The power series whose coefficients are the recurrence terms. -/
noncomputable def Gseries : PowerSeries ℚ :=
  PowerSeries.mk fun k => (recurrence_term k : ℚ)

/-- Numerator of the `n`th symbolic derivative of `G`: the derivative is
`gfDerivNum n / G_den^(n+1)`. -/
def gfDerivNum : Nat → List ℚ
  | 0 => G_num
  | n + 1 =>
    polyAdd (polyMul (polyDeriv (gfDerivNum n)) G_den)
      (polySmul (-((n : ℚ) + 1)) (polyMul (gfDerivNum n) (polyDeriv G_den)))

/-- Embedding of `tiling_gf_exact(n)`: evaluate the `n`th derivative of
`G` at `x = 0` — the numerator at `0` over `G_den(0)^(n+1)` — and divide
by `n!`, exactly as `Rational(value, factorial(n))` does. -/
def tiling_gf_exact (n : Nat) : ℚ :=
  polyEval (gfDerivNum n) 0 / polyEval G_den 0 ^ (n + 1) / (Nat.factorial n : ℚ)

theorem coeff_X_sq_mul (f : PowerSeries ℚ) (n : Nat) :
    PowerSeries.coeff ℚ (n + 2) (PowerSeries.X ^ 2 * f) = PowerSeries.coeff ℚ n f := by
  rw [pow_two, mul_assoc, PowerSeries.coeff_succ_X_mul, PowerSeries.coeff_succ_X_mul]

theorem coeff_X_cube_mul (f : PowerSeries ℚ) (n : Nat) :
    PowerSeries.coeff ℚ (n + 3) (PowerSeries.X ^ 3 * f) = PowerSeries.coeff ℚ n f := by
  rw [pow_succ, mul_comm (PowerSeries.X ^ 2) PowerSeries.X, mul_assoc,
    PowerSeries.coeff_succ_X_mul, coeff_X_sq_mul]

theorem toPS_G_den_expand :
    toPS G_den = PowerSeries.C ℚ 1 + PowerSeries.X * PowerSeries.C ℚ (-3) +
      PowerSeries.X ^ 2 * PowerSeries.C ℚ (-1) + PowerSeries.X ^ 3 * PowerSeries.C ℚ 1 := by
  show PowerSeries.C ℚ 1 + PowerSeries.X * (PowerSeries.C ℚ (-3) +
    PowerSeries.X * (PowerSeries.C ℚ (-1) + PowerSeries.X * (PowerSeries.C ℚ 1 +
      PowerSeries.X * 0))) = _
  ring

/-- The defining identity: the denominator series times the recurrence
series is the numerator series; this is the generating-function /
recurrence correspondence. -/
theorem G_den_mul_Gseries : toPS G_den * Gseries = toPS G_num := by
  apply PowerSeries.ext
  intro k
  have hnum : PowerSeries.coeff ℚ k (toPS G_num) = G_num.getD k 0 := coeff_toPS _ _
  have hmk : ∀ j, PowerSeries.coeff ℚ j Gseries = (recurrence_term j : ℚ) := by
    intro j
    exact PowerSeries.coeff_mk j _
  rw [hnum, toPS_G_den_expand]
  have expand : ∀ j, PowerSeries.coeff ℚ j
      ((PowerSeries.C ℚ 1 + PowerSeries.X * PowerSeries.C ℚ (-3) +
        PowerSeries.X ^ 2 * PowerSeries.C ℚ (-1) + PowerSeries.X ^ 3 * PowerSeries.C ℚ 1)
        * Gseries) =
      PowerSeries.coeff ℚ j (PowerSeries.C ℚ 1 * Gseries) +
      PowerSeries.coeff ℚ j (PowerSeries.X * (PowerSeries.C ℚ (-3) * Gseries)) +
      PowerSeries.coeff ℚ j (PowerSeries.X ^ 2 * (PowerSeries.C ℚ (-1) * Gseries)) +
      PowerSeries.coeff ℚ j (PowerSeries.X ^ 3 * (PowerSeries.C ℚ 1 * Gseries)) := by
    intro j
    rw [← map_add, ← map_add, ← map_add]
    congr 1
    ring
  rw [expand k]
  match k with
  | 0 =>
    rw [PowerSeries.coeff_C_mul, PowerSeries.coeff_zero_X_mul,
      PowerSeries.coeff_X_pow_mul' (PowerSeries.C ℚ (-1) * Gseries) 2 0,
      PowerSeries.coeff_X_pow_mul' (PowerSeries.C ℚ 1 * Gseries) 3 0,
      if_neg (by omega), if_neg (by omega), hmk 0]
    show (1 : ℚ) * 1 + 0 + 0 + 0 = G_num.getD 0 0
    norm_num [G_num]
  | 1 =>
    rw [PowerSeries.coeff_C_mul, PowerSeries.coeff_succ_X_mul, PowerSeries.coeff_C_mul,
      PowerSeries.coeff_X_pow_mul' (PowerSeries.C ℚ (-1) * Gseries) 2 1,
      PowerSeries.coeff_X_pow_mul' (PowerSeries.C ℚ 1 * Gseries) 3 1,
      if_neg (by omega), if_neg (by omega), hmk 1, hmk 0]
    show (1 : ℚ) * 2 + (-3 : ℚ) * 1 + 0 + 0 = G_num.getD 1 0
    norm_num [G_num]
  | 2 =>
    rw [PowerSeries.coeff_C_mul, PowerSeries.coeff_succ_X_mul, PowerSeries.coeff_C_mul,
      coeff_X_sq_mul (PowerSeries.C ℚ (-1) * Gseries) 0, PowerSeries.coeff_C_mul,
      PowerSeries.coeff_X_pow_mul' (PowerSeries.C ℚ 1 * Gseries) 3 2,
      if_neg (by omega), hmk 2, hmk 1, hmk 0]
    show (1 : ℚ) * 7 + (-3 : ℚ) * 2 + (-1 : ℚ) * 1 + 0 = G_num.getD 2 0
    norm_num [G_num]
  | j + 3 =>
    rw [PowerSeries.coeff_C_mul, PowerSeries.coeff_succ_X_mul, PowerSeries.coeff_C_mul,
      coeff_X_sq_mul (PowerSeries.C ℚ (-1) * Gseries) (j + 1), PowerSeries.coeff_C_mul,
      coeff_X_cube_mul (PowerSeries.C ℚ 1 * Gseries) j, PowerSeries.coeff_C_mul,
      hmk (j + 3), hmk (j + 2), hmk (j + 1), hmk j]
    have hstep := recurrence_term_step j
    have hzero : G_num.getD (j + 3) 0 = 0 := rfl
    rw [hzero]
    have hq : (recurrence_term (j + 3) : ℚ) =
        3 * (recurrence_term (j + 2) : ℚ) + (recurrence_term (j + 1) : ℚ) -
          (recurrence_term j : ℚ) := by
      exact_mod_cast congrArg (fun z : Int => (z : ℚ)) hstep
    rw [hq]
    ring

/-- The numerator chain represents the iterated formal derivative:
`toPS (gfDerivNum n) = Dq^[n] Gseries * (toPS G_den)^(n+1)`, i.e. the
`n`th derivative of `G` is `gfDerivNum n / G_den^(n+1)`. -/
theorem gfDerivNum_semantics : ∀ n : Nat,
    toPS (gfDerivNum n) = Dq^[n] Gseries * toPS G_den ^ (n + 1) := by
  intro n
  induction n with
  | zero =>
    show toPS G_num = Gseries * toPS G_den ^ 1
    rw [pow_one, ← G_den_mul_Gseries]
    ring
  | succ m ih =>
    show toPS (polyAdd (polyMul (polyDeriv (gfDerivNum m)) G_den)
      (polySmul (-((m : ℚ) + 1)) (polyMul (gfDerivNum m) (polyDeriv G_den)))) = _
    rw [toPS_add, toPS_mul, toPS_smul, toPS_mul, toPS_deriv, toPS_deriv, ih]
    have hcast : ((m + 1 : Nat) : PowerSeries ℚ) = PowerSeries.C ℚ ((m : ℚ) + 1) := by
      rw [← map_natCast (PowerSeries.C ℚ) (m + 1)]
      norm_num
    have hD : Dq (Dq^[m] Gseries * toPS G_den ^ (m + 1)) =
        Dq (Dq^[m] Gseries) * toPS G_den ^ (m + 1) +
          Dq^[m] Gseries * (PowerSeries.C ℚ ((m : ℚ) + 1) *
            (toPS G_den ^ m * Dq (toPS G_den))) := by
      show PowerSeries.derivative ℚ (Dq^[m] Gseries * toPS G_den ^ (m + 1)) = _
      rw [Derivation.leibniz, Derivation.leibniz_pow, Nat.add_sub_cancel,
        smul_eq_mul, smul_eq_mul, nsmul_eq_mul, hcast, smul_eq_mul]
      unfold Dq
      ring
    rw [hD]
    have hiter : Dq^[m + 1] Gseries = Dq (Dq^[m] Gseries) := by
      rw [Function.iterate_succ_apply']
    rw [hiter, map_neg]
    ring

/-- `G^(n)(0) = n! · (n`th series coefficient`)`: constant coefficient of
the `n`-fold formal derivative. -/
theorem constantCoeff_iterate_Dq : ∀ (n : Nat) (f : PowerSeries ℚ),
    PowerSeries.constantCoeff ℚ (Dq^[n] f) = (Nat.factorial n : ℚ) * PowerSeries.coeff ℚ n f := by
  intro n
  induction n with
  | zero =>
    intro f
    rw [Function.iterate_zero_apply, PowerSeries.coeff_zero_eq_constantCoeff_apply,
      Nat.factorial_zero, Nat.cast_one, one_mul]
  | succ m ih =>
    intro f
    rw [Function.iterate_succ_apply, ih (Dq f)]
    show (Nat.factorial m : ℚ) * PowerSeries.coeff ℚ m (PowerSeries.derivative ℚ f) = _
    rw [PowerSeries.coeff_derivative, Nat.factorial_succ]
    push_cast
    ring

theorem polyEval_G_den_zero : polyEval G_den 0 = 1 := by
  norm_num [polyEval, G_den]

/-- The exact generating-function extraction agrees with the recurrence at
every index: `G^(N)(0)/N! = a_N`. -/
theorem tiling_gf_exact_eq (n : Nat) :
    tiling_gf_exact n = ((recurrence_term n : Int) : ℚ) := by
  have hval : polyEval (gfDerivNum n) 0 = (Nat.factorial n : ℚ) * ((recurrence_term n : Int) : ℚ) := by
    rw [← constantCoeff_toPS, gfDerivNum_semantics n, map_mul, map_pow,
      constantCoeff_iterate_Dq n Gseries, constantCoeff_toPS, polyEval_G_den_zero,
      one_pow, mul_one]
    unfold Gseries
    rw [PowerSeries.coeff_mk]
  unfold tiling_gf_exact
  rw [hval, polyEval_G_den_zero, one_pow, div_one]
  have hfac : (Nat.factorial n : ℚ) ≠ 0 := by
    exact_mod_cast Nat.factorial_ne_zero n
  rw [mul_comm, mul_div_assoc, div_self hfac, mul_one]

/-- **C3.** For every non-negative `N`, `tiling_gf_exact` computes the
`N`th derivative of `G` at `0` divided by `N!` as an exact rational, and
that rational always reduces to an integer (it equals the recurrence term
`a_N`), so a non-integer value is never returned — the fatal
internal-consistency branch the claim describes is unreachable. -/
theorem c3_gf_exact_term_always_integer (n : Nat) :
    tiling_gf_exact n = ((recurrence_term n : Int) : ℚ) ∧
    ∃ k : Int, tiling_gf_exact n = (k : ℚ) :=
  ⟨tiling_gf_exact_eq n, recurrence_term n, tiling_gf_exact_eq n⟩

/-!
## Exact roots and residues (`compute_exact_closed_form`, lines 60-115)

`real_roots(x^3 - x^2 - 3x + 1)` returns the real roots of the
denominator as exact algebraic numbers.  Their semantics is the set of
real zeros of `denomR`; the loop over `exact_roots` computes for each root
`r` the residue `A = (1 - r)/(3r^2 - 2r - 3)` (lines 96-98), and
`exact_closed(n)` returns the nearest integer to the residue sum
`-Σ A_i / r_i^(n+1)` (lines 105-113).  The numeric evaluation of the
residues and of the sum is performed by the source through binary floats
(`complex(r.evalf(50)).real` and `mpmath` at 50 digits), whose rounding
behaviour has no shallow embedding; the definitions below are the exact
real-arithmetic semantics of those formulas, under which the 50-digit
behaviour of the range the program validates is error-free. -/

/-- The denominator polynomial `x^3 - x^2 - 3x + 1` as a real function. -/
noncomputable def denomR (t : ℝ) : ℝ := t ^ 3 - t ^ 2 - 3 * t + 1

/-- Its derivative `3x^2 - 2x - 3` (`denom_deriv`, line 90). -/
noncomputable def denomDerivR (t : ℝ) : ℝ := 3 * t ^ 2 - 2 * t - 3

/-- Exact value of the residue at a simple pole `r`
(`A = (1 - r)/(3r² - 2r - 3)`, lines 96-98). -/
noncomputable def residueWeight (r : ℝ) : ℝ := (1 - r) / denomDerivR r

/-- Exact value of the residue sum `-Σ A_i / r_i^(n+1)` accumulated by
`exact_closed` (lines 109-112) before rounding. -/
noncomputable def closedFormSum (r1 r2 r3 : ℝ) (n : Nat) : ℝ :=
  -(residueWeight r1 / r1 ^ (n + 1)) - residueWeight r2 / r2 ^ (n + 1) -
    residueWeight r3 / r3 ^ (n + 1)

/-- The three real roots of the denominator, in increasing order — the
return shape of `real_roots` for this cubic. -/
def IsRootTriple (r1 r2 r3 : ℝ) : Prop :=
  r1 < r2 ∧ r2 < r3 ∧ denomR r1 = 0 ∧ denomR r2 = 0 ∧ denomR r3 = 0

theorem denomR_continuous : Continuous denomR := by
  unfold denomR
  fun_prop

theorem rootTriple_exists :
    ∃ r1 r2 r3 : ℝ, IsRootTriple r1 r2 r3 ∧
      r1 ∈ Set.Icc (-2 : ℝ) (-1) ∧ r2 ∈ Set.Icc (0 : ℝ) 1 ∧ r3 ∈ Set.Icc (2 : ℝ) 3 := by
  have hc : ∀ a b : ℝ, ContinuousOn denomR (Set.Icc a b) :=
    fun a b => denomR_continuous.continuousOn
  have h1 : ∃ r ∈ Set.Icc (-2 : ℝ) (-1), denomR r = 0 := by
    have hsub := intermediate_value_Icc (by norm_num : (-2 : ℝ) ≤ -1) (hc (-2) (-1))
    have hmem : (0 : ℝ) ∈ Set.Icc (denomR (-2)) (denomR (-1)) := by
      constructor <;> norm_num [denomR]
    obtain ⟨r, hr, hr0⟩ := hsub hmem
    exact ⟨r, hr, hr0⟩
  have h2 : ∃ r ∈ Set.Icc (0 : ℝ) 1, denomR r = 0 := by
    have hsub := intermediate_value_Icc' (by norm_num : (0 : ℝ) ≤ 1) (hc 0 1)
    have hmem : (0 : ℝ) ∈ Set.Icc (denomR 1) (denomR 0) := by
      constructor <;> norm_num [denomR]
    obtain ⟨r, hr, hr0⟩ := hsub hmem
    exact ⟨r, hr, hr0⟩
  have h3 : ∃ r ∈ Set.Icc (2 : ℝ) 3, denomR r = 0 := by
    have hsub := intermediate_value_Icc (by norm_num : (2 : ℝ) ≤ 3) (hc 2 3)
    have hmem : (0 : ℝ) ∈ Set.Icc (denomR 2) (denomR 3) := by
      constructor <;> norm_num [denomR]
    obtain ⟨r, hr, hr0⟩ := hsub hmem
    exact ⟨r, hr, hr0⟩
  obtain ⟨r1, hr1, h1z⟩ := h1
  obtain ⟨r2, hr2, h2z⟩ := h2
  obtain ⟨r3, hr3, h3z⟩ := h3
  refine ⟨r1, r2, r3, ⟨?_, ?_, h1z, h2z, h3z⟩, hr1, hr2, hr3⟩
  · have := hr1.2
    have := hr2.1
    linarith
  · have := hr2.2
    have := hr3.1
    linarith

/-- Vieta relations for any increasing triple of roots of the denominator:
the elementary symmetric functions are `1, -3, -1`. -/
theorem vieta {r1 r2 r3 : ℝ} (h : IsRootTriple r1 r2 r3) :
    r1 + r2 + r3 = 1 ∧ r1 * r2 + r1 * r3 + r2 * r3 = -3 ∧ r1 * r2 * r3 = -1 := by
  obtain ⟨h12, h23, h1, h2, h3⟩ := h
  unfold denomR at h1 h2 h3
  have hne12 : r2 - r1 ≠ 0 := sub_ne_zero.mpr (ne_of_gt h12)
  have hne23 : r2 - r3 ≠ 0 := sub_ne_zero.mpr (ne_of_lt h23)
  have q2 : r2 ^ 2 + (r1 - 1) * r2 + (r1 ^ 2 - r1 - 3) = 0 := by
    have hz : (r2 - r1) * (r2 ^ 2 + (r1 - 1) * r2 + (r1 ^ 2 - r1 - 3)) = 0 := by
      linear_combination h2 - h1
    rcases mul_eq_zero.mp hz with hz | hz
    · exact absurd hz hne12
    · exact hz
  have q3 : r3 ^ 2 + (r1 - 1) * r3 + (r1 ^ 2 - r1 - 3) = 0 := by
    have hz : (r3 - r1) * (r3 ^ 2 + (r1 - 1) * r3 + (r1 ^ 2 - r1 - 3)) = 0 := by
      linear_combination h3 - h1
    rcases mul_eq_zero.mp hz with hz | hz
    · have : r3 = r1 := by linarith
      exact absurd this (by intro he; linarith)
    · exact hz
  have hV1 : r1 + r2 + r3 = 1 := by
    have hz : (r2 - r3) * (r1 + r2 + r3 - 1) = 0 := by
      linear_combination q2 - q3
    rcases mul_eq_zero.mp hz with hz | hz
    · exact absurd hz hne23
    · linarith
  have hV2 : r1 * r2 + r1 * r3 + r2 * r3 = -3 := by
    linear_combination (-1) * q2 + (r1 + r2) * hV1
  have hV3 : r1 * r2 * r3 = -1 := by
    linear_combination r3 * hV2 - r3 ^ 2 * hV1 + h3
  exact ⟨hV1, hV2, hV3⟩

/-- At each root the polynomial derivative factors through the root
differences — the simple-pole residue denominator is the product of
differences, hence nonzero for distinct roots. -/
theorem denomDerivR_factor {r1 r2 r3 : ℝ} (h : IsRootTriple r1 r2 r3) :
    denomDerivR r1 = (r1 - r2) * (r1 - r3) ∧
    denomDerivR r2 = (r2 - r1) * (r2 - r3) ∧
    denomDerivR r3 = (r3 - r1) * (r3 - r2) := by
  obtain ⟨hV1, hV2, _⟩ := vieta h
  unfold denomDerivR
  refine ⟨?_, ?_, ?_⟩
  · linear_combination (2 * r1) * hV1 - hV2
  · linear_combination (2 * r2) * hV1 - hV2
  · linear_combination (2 * r3) * hV1 - hV2

theorem denomDerivR_ne_zero {r1 r2 r3 : ℝ} (h : IsRootTriple r1 r2 r3) :
    denomDerivR r1 ≠ 0 ∧ denomDerivR r2 ≠ 0 ∧ denomDerivR r3 ≠ 0 := by
  obtain ⟨hf1, hf2, hf3⟩ := denomDerivR_factor h
  obtain ⟨h12, h23, -, -, -⟩ := h
  have h13 : r1 < r3 := lt_trans h12 h23
  refine ⟨?_, ?_, ?_⟩
  · rw [hf1]
    exact mul_ne_zero (sub_ne_zero.mpr (ne_of_lt h12)) (sub_ne_zero.mpr (ne_of_lt h13))
  · rw [hf2]
    exact mul_ne_zero (sub_ne_zero.mpr (ne_of_gt h12)) (sub_ne_zero.mpr (ne_of_lt h23))
  · rw [hf3]
    exact mul_ne_zero (sub_ne_zero.mpr (ne_of_gt h13)) (sub_ne_zero.mpr (ne_of_gt h23))

/-- Full factorization of the denominator over any root triple. -/
theorem denomR_factorization {r1 r2 r3 : ℝ} (h : IsRootTriple r1 r2 r3) (t : ℝ) :
    denomR t = (t - r1) * (t - r2) * (t - r3) := by
  obtain ⟨hV1, hV2, hV3⟩ := vieta h
  unfold denomR
  linear_combination (t ^ 2) * hV1 - t * hV2 + hV3

/-- **C4.** The denominator `x^3 - x^2 - 3x + 1` has exactly three real
roots — as many as its degree — and they are simple (the derivative does
not vanish at any of them), so the real-and-simple precondition of the
root extractor holds for this input and `real_roots` returns a root set
of cardinality 3.  (The source never *checks* this precondition — see the
claim record; this theorem establishes the mathematical fact that makes
the unchecked setup succeed.) -/
theorem c4_three_simple_real_roots :
    ∃ r1 r2 r3 : ℝ, IsRootTriple r1 r2 r3 ∧
      (∀ t : ℝ, denomR t = 0 ↔ t = r1 ∨ t = r2 ∨ t = r3) ∧
      denomDerivR r1 ≠ 0 ∧ denomDerivR r2 ≠ 0 ∧ denomDerivR r3 ≠ 0 := by
  obtain ⟨r1, r2, r3, htriple, -, -, -⟩ := rootTriple_exists
  obtain ⟨hd1, hd2, hd3⟩ := denomDerivR_ne_zero htriple
  refine ⟨r1, r2, r3, htriple, ?_, hd1, hd2, hd3⟩
  intro t
  constructor
  · intro ht
    have := denomR_factorization htriple t
    rw [ht] at this
    rcases mul_eq_zero.mp this.symm with hz | hz
    · rcases mul_eq_zero.mp hz with hz | hz
      · exact Or.inl (by linarith [sub_eq_zero.mp hz])
      · exact Or.inr (Or.inl (by linarith [sub_eq_zero.mp hz]))
    · exact Or.inr (Or.inr (by linarith [sub_eq_zero.mp hz]))
  · intro ht
    rw [denomR_factorization htriple t]
    rcases ht with rfl | rfl | rfl
    · ring
    · ring
    · ring

theorem root_ne_zero {r : ℝ} (hr : denomR r = 0) : r ≠ 0 := by
  intro he
  rw [he] at hr
  norm_num [denomR] at hr

/-- The three moment identities of the residue weights:
`Σ A_i = 0`, `Σ A_i r_i = -1`, `Σ A_i r_i² = 0` (divided differences of
`1 - x`, `x - x²`, `x² - x³` over the three roots). -/
theorem residueWeight_moments {r1 r2 r3 : ℝ} (h : IsRootTriple r1 r2 r3) :
    residueWeight r1 + residueWeight r2 + residueWeight r3 = 0 ∧
    residueWeight r1 * r1 + residueWeight r2 * r2 + residueWeight r3 * r3 = -1 ∧
    residueWeight r1 * r1 ^ 2 + residueWeight r2 * r2 ^ 2 + residueWeight r3 * r3 ^ 2 = 0 := by
  obtain ⟨hf1, hf2, hf3⟩ := denomDerivR_factor h
  have hV1 := (vieta h).1
  obtain ⟨h12, h23, -, -, -⟩ := h
  have h13 : r1 < r3 := lt_trans h12 h23
  have hne12 : r1 - r2 ≠ 0 := sub_ne_zero.mpr (ne_of_lt h12)
  have hne13 : r1 - r3 ≠ 0 := sub_ne_zero.mpr (ne_of_lt h13)
  have hne21 : r2 - r1 ≠ 0 := sub_ne_zero.mpr (ne_of_gt h12)
  have hne23 : r2 - r3 ≠ 0 := sub_ne_zero.mpr (ne_of_lt h23)
  have hne31 : r3 - r1 ≠ 0 := sub_ne_zero.mpr (ne_of_gt h13)
  have hne32 : r3 - r2 ≠ 0 := sub_ne_zero.mpr (ne_of_gt h23)
  unfold residueWeight
  rw [hf1, hf2, hf3]
  refine ⟨?_, ?_, ?_⟩
  · field_simp
    ring
  · field_simp
    ring
  · have hM2 : (1 - r1) / ((r1 - r2) * (r1 - r3)) * r1 ^ 2 +
        (1 - r2) / ((r2 - r1) * (r2 - r3)) * r2 ^ 2 +
        (1 - r3) / ((r3 - r1) * (r3 - r2)) * r3 ^ 2 = 1 - (r1 + r2 + r3) := by
      field_simp
      ring
    rw [hM2, hV1]
    norm_num

/-- Reduction of inverse powers of a root against the cubic:
`1/r, (1/r)², (1/r)³` are quadratic polynomials in `r`. -/
theorem root_inv_pows {r : ℝ} (hr : denomR r = 0) :
    1 / r = -r ^ 2 + r + 3 ∧ (1 / r) ^ 2 = -3 * r ^ 2 + 2 * r + 10 ∧
      (1 / r) ^ 3 = -10 * r ^ 2 + 7 * r + 32 := by
  have h0 := root_ne_zero hr
  unfold denomR at hr
  refine ⟨?_, ?_, ?_⟩
  · field_simp
    linear_combination hr
  · field_simp
    linear_combination (3 * r + 1) * hr
  · field_simp
    linear_combination (10 * r ^ 2 + 3 * r + 1) * hr

/-- The inverse powers of a root satisfy the reversed recurrence
`t^(n+3) = 3 t^(n+2) + t^(n+1) - t^n` for `t = 1/r`. -/
theorem root_inv_pow_step {r : ℝ} (hr : denomR r = 0) (n : Nat) :
    (1 / r) ^ (n + 4) =
      3 * (1 / r) ^ (n + 3) + (1 / r) ^ (n + 2) - (1 / r) ^ (n + 1) := by
  have h0 := root_ne_zero hr
  have h3 : (1 / r) ^ 3 = 3 * (1 / r) ^ 2 + 1 / r - 1 := by
    unfold denomR at hr
    field_simp
    linear_combination (r ^ 3) * hr
  calc (1 / r) ^ (n + 4) = (1 / r) ^ (n + 1) * (1 / r) ^ 3 := by ring
  _ = (1 / r) ^ (n + 1) * (3 * (1 / r) ^ 2 + 1 / r - 1) := by rw [h3]
  _ = 3 * (1 / r) ^ (n + 3) + (1 / r) ^ (n + 2) - (1 / r) ^ (n + 1) := by ring

theorem div_pow_eq_mul_inv_pow (A r : ℝ) (k : Nat) : A / r ^ k = A * (1 / r) ^ k := by
  rw [one_div, inv_pow, div_eq_mul_inv]

/-- Seed values of the residue sum. -/
theorem closedFormSum_seeds {r1 r2 r3 : ℝ} (h : IsRootTriple r1 r2 r3) :
    closedFormSum r1 r2 r3 0 = 1 ∧ closedFormSum r1 r2 r3 1 = 2 ∧
      closedFormSum r1 r2 r3 2 = 7 := by
  obtain ⟨hM0, hM1, hM2⟩ := residueWeight_moments h
  obtain ⟨-, -, h1, h2, h3⟩ := h
  obtain ⟨hi1, hi2, hi3⟩ := root_inv_pows h1
  obtain ⟨hj1, hj2, hj3⟩ := root_inv_pows h2
  obtain ⟨hk1, hk2, hk3⟩ := root_inv_pows h3
  unfold closedFormSum
  refine ⟨?_, ?_, ?_⟩
  · rw [div_pow_eq_mul_inv_pow, div_pow_eq_mul_inv_pow, div_pow_eq_mul_inv_pow]
    show -(residueWeight r1 * (1 / r1) ^ 1) - residueWeight r2 * (1 / r2) ^ 1 -
      residueWeight r3 * (1 / r3) ^ 1 = 1
    rw [pow_one, pow_one, pow_one, hi1, hj1, hk1]
    linear_combination hM2 - hM1 - 3 * hM0
  · rw [div_pow_eq_mul_inv_pow, div_pow_eq_mul_inv_pow, div_pow_eq_mul_inv_pow]
    show -(residueWeight r1 * (1 / r1) ^ 2) - residueWeight r2 * (1 / r2) ^ 2 -
      residueWeight r3 * (1 / r3) ^ 2 = 2
    rw [hi2, hj2, hk2]
    linear_combination 3 * hM2 - 2 * hM1 - 10 * hM0
  · rw [div_pow_eq_mul_inv_pow, div_pow_eq_mul_inv_pow, div_pow_eq_mul_inv_pow]
    show -(residueWeight r1 * (1 / r1) ^ 3) - residueWeight r2 * (1 / r2) ^ 3 -
      residueWeight r3 * (1 / r3) ^ 3 = 7
    rw [hi3, hj3, hk3]
    linear_combination 10 * hM2 - 7 * hM1 - 32 * hM0

/-- The residue sum satisfies the order-3 recurrence. -/
theorem closedFormSum_step {r1 r2 r3 : ℝ} (h : IsRootTriple r1 r2 r3) (m : Nat) :
    closedFormSum r1 r2 r3 (m + 3) =
      3 * closedFormSum r1 r2 r3 (m + 2) + closedFormSum r1 r2 r3 (m + 1) -
        closedFormSum r1 r2 r3 m := by
  obtain ⟨-, -, h1, h2, h3⟩ := h
  unfold closedFormSum
  rw [div_pow_eq_mul_inv_pow, div_pow_eq_mul_inv_pow, div_pow_eq_mul_inv_pow,
    div_pow_eq_mul_inv_pow, div_pow_eq_mul_inv_pow, div_pow_eq_mul_inv_pow,
    div_pow_eq_mul_inv_pow, div_pow_eq_mul_inv_pow, div_pow_eq_mul_inv_pow,
    div_pow_eq_mul_inv_pow, div_pow_eq_mul_inv_pow, div_pow_eq_mul_inv_pow]
  have e1 := root_inv_pow_step h1 m
  have e2 := root_inv_pow_step h2 m
  have e3 := root_inv_pow_step h3 m
  show -(residueWeight r1 * (1 / r1) ^ (m + 3 + 1)) -
      residueWeight r2 * (1 / r2) ^ (m + 3 + 1) -
      residueWeight r3 * (1 / r3) ^ (m + 3 + 1) = _
  have hn : m + 3 + 1 = m + 4 := rfl
  rw [hn]
  rw [e1, e2, e3]
  ring

/-- The residue sum reproduces the recurrence sequence exactly at every
index (exact partial-fraction reconstruction). -/
theorem closedFormSum_eq {r1 r2 r3 : ℝ} (h : IsRootTriple r1 r2 r3) :
    ∀ n : Nat, closedFormSum r1 r2 r3 n = ((recurrence_term n : Int) : ℝ) := by
  intro n
  induction n using Nat.strong_induction_on with
  | _ n ih =>
    match n with
    | 0 =>
      rw [(closedFormSum_seeds h).1]
      norm_num [recurrence_term_zero]
    | 1 =>
      rw [(closedFormSum_seeds h).2.1]
      norm_num [recurrence_term_one]
    | 2 =>
      rw [(closedFormSum_seeds h).2.2]
      norm_num [recurrence_term_two]
    | m + 3 =>
      rw [closedFormSum_step h m, ih (m + 2) (by omega), ih (m + 1) (by omega),
        ih m (by omega), recurrence_term_step m]
      push_cast
      ring

/-- **C1.** For every index `N ≤ 20` the three independently derived exact
methods agree: the recurrence term, the generating-function Taylor
coefficient `G^(N)(0)/N!`, and the closed-form residue sum
`-Σ A_i / r_i^(N+1)` over the real roots of the denominator (the
50-digit numeric evaluation of `exact_closed`, modelled in exact real
arithmetic) rounds to the same integer — indeed the sum equals it
exactly.  The root triple exists and the agreement holds for every such
triple. -/
theorem c1_three_exact_methods_agree (n : Nat) (_hn : n ≤ 20) :
    tiling_gf_exact n = ((recurrence_term n : Int) : ℚ) ∧
    (∃ r1 r2 r3 : ℝ, IsRootTriple r1 r2 r3) ∧
    ∀ r1 r2 r3 : ℝ, IsRootTriple r1 r2 r3 →
      closedFormSum r1 r2 r3 n = ((recurrence_term n : Int) : ℝ) ∧
      round (closedFormSum r1 r2 r3 n) = recurrence_term n := by
  refine ⟨tiling_gf_exact_eq n, ?_, ?_⟩
  · obtain ⟨r1, r2, r3, htriple, -⟩ := rootTriple_exists
    exact ⟨r1, r2, r3, htriple⟩
  · intro r1 r2 r3 htriple
    have he := closedFormSum_eq htriple n
    refine ⟨he, ?_⟩
    rw [he]
    exact round_intCast (recurrence_term n)

/-- Witness for C1 at the concrete index `N = 20`. -/
theorem c1_three_exact_methods_agree_witness :
    tiling_gf_exact 20 = ((recurrence_term 20 : Int) : ℚ) ∧
    (∃ r1 r2 r3 : ℝ, IsRootTriple r1 r2 r3) ∧
    ∀ r1 r2 r3 : ℝ, IsRootTriple r1 r2 r3 →
      closedFormSum r1 r2 r3 20 = ((recurrence_term 20 : Int) : ℝ) ∧
      round (closedFormSum r1 r2 r3 20) = recurrence_term 20 :=
  c1_three_exact_methods_agree 20 (by norm_num)

/-!
## Irrationality of the exact residue weights (claim C5)

The source caches, at construction time (line 99), one numeric value per
residue, obtained by rational (binary-float) arithmetic from a rational
approximation of the root (lines 95-98).  The exact weights are
irrational, so no such cached rational value can be the exact weight. -/

/-- A rational whose denominator divides a power of its numerator is an
integer. -/
theorem rat_den_eq_one_of_dvd_num_pow (q : ℚ) (k : Nat) (h : (q.den : ℤ) ∣ q.num ^ k) :
    q.den = 1 := by
  have h2 : q.den ∣ q.num.natAbs ^ k := by
    have h3 := Int.natAbs_dvd_natAbs.mpr h
    rwa [Int.natAbs_pow, Int.natAbs_ofNat] at h3
  exact Nat.Coprime.eq_one_of_dvd (Nat.Coprime.pow_right k q.reduced.symm) h2

/-- The cubic `x^3 - x^2 - 3x + 1` has no rational root (rational-root
theorem: a root would be `±1`, and neither works). -/
theorem no_rat_root_cubic (q : ℚ) : q ^ 3 - q ^ 2 - 3 * q + 1 ≠ 0 := by
  intro h
  have hden0 : ((q.den : ℚ)) ≠ 0 := by
    exact_mod_cast q.den_nz
  have hmul : (q.num : ℚ) = q * (q.den : ℚ) := (div_eq_iff hden0).mp (Rat.num_div_den q)
  have key : (q.num : ℚ) ^ 3 - (q.num : ℚ) ^ 2 * (q.den : ℚ) -
      3 * (q.num : ℚ) * (q.den : ℚ) ^ 2 + (q.den : ℚ) ^ 3 = 0 := by
    linear_combination ((q.num : ℚ) ^ 2 + (q.num : ℚ) * (q * (q.den : ℚ)) +
      (q * (q.den : ℚ)) ^ 2 - (q.den : ℚ) * ((q.num : ℚ) + q * (q.den : ℚ)) -
      3 * (q.den : ℚ) ^ 2) * hmul + (q.den : ℚ) ^ 3 * h
  have keyZ : q.num ^ 3 - q.num ^ 2 * (q.den : ℤ) - 3 * q.num * (q.den : ℤ) ^ 2 +
      (q.den : ℤ) ^ 3 = 0 := by
    exact_mod_cast key
  have hdvd : (q.den : ℤ) ∣ q.num ^ 3 :=
    ⟨q.num ^ 2 + 3 * q.num * (q.den : ℤ) - (q.den : ℤ) ^ 2, by linear_combination keyZ⟩
  have hd1 : q.den = 1 := rat_den_eq_one_of_dvd_num_pow q 3 hdvd
  have hd1Z : (q.den : ℤ) = 1 := by exact_mod_cast hd1
  rw [hd1Z] at keyZ
  have hdvd1 : q.num ∣ (-1 : ℤ) :=
    ⟨q.num ^ 2 - q.num - 3, by linear_combination -keyZ⟩
  have hu : IsUnit q.num := isUnit_of_dvd_unit hdvd1 (IsUnit.neg isUnit_one)
  rcases Int.isUnit_iff.mp hu with h1 | h1 <;> rw [h1] at keyZ <;> norm_num at keyZ

/-- Every real root of the cubic is irrational. -/
theorem root_irrational {r : ℝ} (hr : denomR r = 0) (w : ℚ) : r ≠ (w : ℝ) := by
  intro he
  rw [he] at hr
  unfold denomR at hr
  have : ((w ^ 3 - w ^ 2 - 3 * w + 1 : ℚ) : ℝ) = 0 := by
    push_cast
    linear_combination hr
  exact no_rat_root_cubic w (by exact_mod_cast this)

/-- The elimination quadratic `-20w² + 2w + 1` has no rational root: a
root would make `u = 10w` satisfy `u(u-1) = 5`, but a product of two
consecutive integers is even. -/
theorem no_rat_root_elim_quad (w : ℚ) : -20 * w ^ 2 + 2 * w + 1 ≠ 0 := by
  intro h
  set u : ℚ := 10 * w with hu
  have huq : u ^ 2 - u - 5 = 0 := by
    rw [hu]
    linear_combination (-5) * h
  have hden0 : ((u.den : ℚ)) ≠ 0 := by
    exact_mod_cast u.den_nz
  have hmul : (u.num : ℚ) = u * (u.den : ℚ) := (div_eq_iff hden0).mp (Rat.num_div_den u)
  have key : (u.num : ℚ) ^ 2 - (u.num : ℚ) * (u.den : ℚ) - 5 * (u.den : ℚ) ^ 2 = 0 := by
    linear_combination ((u.num : ℚ) + u * (u.den : ℚ) - (u.den : ℚ)) * hmul +
      (u.den : ℚ) ^ 2 * huq
  have keyZ : u.num ^ 2 - u.num * (u.den : ℤ) - 5 * (u.den : ℤ) ^ 2 = 0 := by
    exact_mod_cast key
  have hdvd : (u.den : ℤ) ∣ u.num ^ 2 :=
    ⟨u.num + 5 * (u.den : ℤ), by linear_combination keyZ⟩
  have hd1 : u.den = 1 := rat_den_eq_one_of_dvd_num_pow u 2 hdvd
  have hd1Z : (u.den : ℤ) = 1 := by exact_mod_cast hd1
  rw [hd1Z] at keyZ
  have hprod : (u.num - 1) * u.num = 5 := by linear_combination keyZ
  have heven : Even ((u.num - 1) * u.num) := by
    have := Int.even_mul_succ_self (u.num - 1)
    have harw : (u.num - 1) * (u.num - 1 + 1) = (u.num - 1) * u.num := by ring
    rwa [harw] at this
  rw [hprod] at heven
  rcases heven with ⟨k, hk⟩
  omega

/-- The exact residue weight at any simple root of the denominator is
irrational: it equals no rational number (in particular no cached float
value). -/
theorem residueWeight_irrational {r : ℝ} (hr : denomR r = 0) (hdpne : denomDerivR r ≠ 0)
    (w : ℚ) : residueWeight r ≠ (w : ℝ) := by
  intro heq
  have hrirr := root_irrational hr
  unfold residueWeight at heq
  have heq' : 1 - r = (w : ℝ) * denomDerivR r := (div_eq_iff hdpne).mp heq
  unfold denomDerivR at heq'
  by_cases hw : w = 0
  · rw [hw] at heq'
    push_cast at heq'
    have : r = 1 := by linarith
    exact hrirr 1 (by rw [this]; norm_num)
  · have hquad : 3 * (w : ℝ) * r ^ 2 + (1 - 2 * (w : ℝ)) * r - (3 * (w : ℝ) + 1) = 0 := by
      linear_combination -heq'
    have hrt := hr
    unfold denomR at hrt
    have hlin : ((-20 * w ^ 2 + 2 * w + 1 : ℚ) : ℝ) * r + ((6 * w ^ 2 - 4 * w - 1 : ℚ) : ℝ) = 0 := by
      push_cast
      linear_combination (9 * (w : ℝ) ^ 2) * hrt - (3 * (w : ℝ) * r - (w : ℝ) - 1) * hquad
    have hcq : (-20 * w ^ 2 + 2 * w + 1 : ℚ) ≠ 0 := no_rat_root_elim_quad w
    have hcR : ((-20 * w ^ 2 + 2 * w + 1 : ℚ) : ℝ) ≠ 0 := by
      exact_mod_cast hcq
    have hrval : r = ((-(6 * w ^ 2 - 4 * w - 1) / (-20 * w ^ 2 + 2 * w + 1) : ℚ) : ℝ) := by
      have hcR2 : (-20 * (w : ℝ) ^ 2 + 2 * (w : ℝ) + 1) ≠ 0 := by
        push_cast at hcR
        exact hcR
      push_cast
      rw [eq_div_iff hcR2]
      push_cast at hlin
      linear_combination hlin
    exact hrirr _ hrval

/-- Every real root of the denominator is simple (it is one of the three
roots of a triple, where the derivative does not vanish), so its exact
residue weight equals no rational number. -/
theorem every_root_weight_irrational (t : ℝ) (ht : denomR t = 0) (w : ℚ) :
    residueWeight t ≠ (w : ℝ) := by
  obtain ⟨r1, r2, r3, htriple, -, -, -⟩ := rootTriple_exists
  obtain ⟨hd1, hd2, hd3⟩ := denomDerivR_ne_zero htriple
  have hfact := denomR_factorization htriple t
  rw [ht] at hfact
  obtain ⟨-, -, hr1, hr2, hr3⟩ := htriple
  rcases mul_eq_zero.mp hfact.symm with hz | hz
  · rcases mul_eq_zero.mp hz with hz | hz
    · have he : t = r1 := by linarith [sub_eq_zero.mp hz]
      rw [he]
      exact residueWeight_irrational hr1 hd1 w
    · have he : t = r2 := by linarith [sub_eq_zero.mp hz]
      rw [he]
      exact residueWeight_irrational hr2 hd2 w
  · have he : t = r3 := by linarith [sub_eq_zero.mp hz]
    rw [he]
    exact residueWeight_irrational hr3 hd3 w

/-- There is a root of the denominator in the open interval `(0, 1)`, and
its exact residue weight equals no rational number. -/
theorem exists_unit_interval_root_weight_irrational :
    ∃ r : ℝ, (0 < r ∧ r < 1 ∧ denomR r = 0) ∧
      ∀ w : ℚ, residueWeight r ≠ (w : ℝ) := by
  obtain ⟨r1, r2, r3, htriple, -, hr2, -⟩ := rootTriple_exists
  obtain ⟨-, -, -, h2, -⟩ := htriple
  have h0 : (0 : ℝ) < r2 := by
    rcases lt_or_eq_of_le hr2.1 with hlt | heqz
    · exact hlt
    · exact absurd h2 (by rw [← heqz]; norm_num [denomR])
  have h1 : r2 < 1 := by
    rcases lt_or_eq_of_le hr2.2 with hlt | heqo
    · exact hlt
    · exact absurd h2 (by rw [heqo]; norm_num [denomR])
  exact ⟨r2, ⟨h0, h1, h2⟩, every_root_weight_irrational r2 h2⟩

/-- **C5, counterexample.** The claim says every Residue pairs the exact
algebraic root with its *exact* partial-fraction weight, produced on
demand and never cached at fixed precision.  The construction (lines
95-99) instead computes, once, a numeric weight by rational arithmetic
from a rational (binary-float) approximation of the root and stores that
fixed value in the `residues` list.  There is a root of the denominator
in `(0, 1)` whose exact weight `(1 - r)/(3r² - 2r - 3)` equals *no*
rational number, so the cached value is never the exact weight. -/
theorem c5_counterexample :
    ∃ r : ℝ, (0 < r ∧ r < 1 ∧ denomR r = 0) ∧
      ∀ w : ℚ, residueWeight r ≠ (w : ℝ) :=
  exists_unit_interval_root_weight_irrational

/-- The residue weight as the source's constructor computes it (lines
95-98): rational arithmetic `(1 - rv)/(3 rv² - 2 rv - 3)` applied to a
finite-precision rational approximation `rv` of the root
(`complex(r.evalf(50)).real` is a binary float, hence rational), cached
once in the `residues` list. -/
def residue_weight_cached (rv : ℚ) : ℚ :=
  (1 - rv) / (3 * rv ^ 2 - 2 * rv - 3)

/-- **C5, amended.** *Every* Residue pairs an exact algebraic root with a
*fixed rational* numeric weight computed once at construction from a
rational approximation of the root; since the exact partial-fraction
weight at every root of the denominator is irrational, the cached weight
is never the exact weight — at any of the three roots the construction
loop iterates over, and for any choice of the rational approximation. -/
theorem c5_amended_cached_weight_never_exact :
    (∃ r1 r2 r3 : ℝ, IsRootTriple r1 r2 r3) ∧
      ∀ t : ℝ, denomR t = 0 →
        ∀ rv : ℚ, ((residue_weight_cached rv : ℚ) : ℝ) ≠ residueWeight t := by
  constructor
  · obtain ⟨r1, r2, r3, htriple, -, -, -⟩ := rootTriple_exists
    exact ⟨r1, r2, r3, htriple⟩
  · intro t ht rv heq
    exact every_root_weight_irrational t ht (residue_weight_cached rv) heq.symm

end TilingAnalysis
